import Mathlib

/-!
Shallow embedding of the account validator of `the-amazing-ledger`
(package `vos`, file defining `Account`, `NewAccount`, `NewAnalyticAccount`,
`newAccount`, `treatDot`, `treatStar`, `lowerAccount`), together with
theorems checking the specification's claims about it.

Go strings are modelled as Lean `String` (the scan loop ranges over runes,
i.e. `Char`s; every rune the scanner accepts is ASCII, so the byte-indexed
operations of the source — `account[:st.componentSize]` and the byte-wise
`lowerAccount` — coincide with the `Char`-indexed models used here).
The Go `uint` counters are modelled as `Nat`: a Go string's length is
bounded by 2^63, so the counters, which never exceed the input length,
can never wrap around in the source.
-/

namespace LedgerVos

/-- AccountType indicates what the given account represents, analytic or synthetic. -/
inductive AccountType where
  | Analytic
  | Synthetic
  deriving DecidableEq, Repr

/-- the five error values of package `app` used by the validator. -/
inductive Err where
  | ErrInvalidAccountStructure
  | ErrInvalidSingleAccountComponentCharacters
  | ErrInvalidAccountComponentCharacters
  | ErrInvalidAccountComponentSize
  | ErrAccountPathViolation
  deriving DecidableEq, Repr

/-- Account: a validated account path with its computed type. -/
structure Account where
  accountType : AccountType
  value : String
  deriving DecidableEq, Repr

/-- the scanner state of `newAccount` (Go struct `state`). -/
structure state where
  totalComponents : Nat
  componentSize : Nat
  strategy : AccountType
  needsLower : Bool
  componentHasStar : Bool
  deriving DecidableEq, Repr

def maxLabelSize : Nat := 256

def maxComponents : Nat := 65535

/-- the `switch account[:st.componentSize]` class test of the source,
    comparing a label against the seven class constants. -/
def isClass (l : List Char) : Bool :=
  l = "asset".data || l = "conciliate_credit".data || l = "conciliate_debit".data ||
  l = "equity".data || l = "expense".data || l = "revenue".data || l = "liability".data

/-- Go `treatDot(account, st)`. -/
def treatDot (account : List Char) (st : state) : Except Err state :=
  if st.componentSize = 0 ∨ st.componentSize > maxLabelSize then
    .error .ErrInvalidAccountComponentSize
  else if st.totalComponents = 0 ∧ st.componentHasStar = false then
    if isClass (account.take st.componentSize) then
      .ok { st with totalComponents := st.totalComponents + 1,
                    componentSize := 0, componentHasStar := false }
    else
      .error .ErrAccountPathViolation
  else if st.totalComponents ≥ maxComponents then
    .error .ErrInvalidAccountStructure
  else
    .ok { st with totalComponents := st.totalComponents + 1,
                  componentSize := 0, componentHasStar := false }

/-- Go `treatStar(st)`. -/
def treatStar (st : state) : Except Err state :=
  if st.componentHasStar then
    .error .ErrInvalidAccountStructure
  else
    .ok { st with strategy := .Synthetic,
                  componentSize := st.componentSize + 1, componentHasStar := true }

/-- one iteration of the `for _, r = range account` switch in `newAccount`. -/
def step (analyticOnly : Bool) (account : List Char) (st : state) (r : Char) :
    Except Err state :=
  if 'a' ≤ r ∧ r ≤ 'z' then
    .ok { st with componentSize := st.componentSize + 1 }
  else if '0' ≤ r ∧ r ≤ '9' then
    .ok { st with componentSize := st.componentSize + 1 }
  else if 'A' ≤ r ∧ r ≤ 'Z' then
    .ok { st with componentSize := st.componentSize + 1, needsLower := true }
  else if r = '_' then
    .ok { st with componentSize := st.componentSize + 1 }
  else if r = '.' then
    treatDot account st
  else if r = '*' then
    if analyticOnly then
      .error .ErrInvalidSingleAccountComponentCharacters
    else
      treatStar st
  else
    .error .ErrInvalidAccountComponentCharacters

/-- the scan loop of `newAccount`, folded over the runes of the input. -/
def scan (analyticOnly : Bool) (account : List Char) : state → List Char → Except Err state
  | st, [] => .ok st
  | st, r :: l =>
    match step analyticOnly account st r with
    | .error e => .error e
    | .ok st' => scan analyticOnly account st' l

/-- Go `lowerAccount` acts byte-wise; on the ASCII strings the validator
    accepts this is the rune-wise ASCII fold. -/
def lowerChar (c : Char) : Char :=
  if 'A' ≤ c ∧ c ≤ 'Z' then Char.ofNat (c.toNat + 32) else c

def lowerAccount (account : String) : String :=
  ⟨account.data.map lowerChar⟩

def initState : state :=
  { totalComponents := 0, componentSize := 0, strategy := .Analytic,
    needsLower := false, componentHasStar := false }

/-- the successful return of `newAccount` (lines building the `Account` value). -/
def mkAcc (account : String) (st : state) : Except Err Account :=
  .ok { value := if st.needsLower then lowerAccount account else account,
        accountType := st.strategy }

/-- the checks of `newAccount` after the scan loop: trailing-dot rune check,
    final-label class check, and minimum-size check. -/
def finish (account : String) (st : state) : Except Err Account :=
  if account.data.getLast? = some '.' then
    .error .ErrInvalidAccountComponentSize
  else if st.totalComponents = 0 ∧ st.componentHasStar = false then
    if isClass (account.data.take st.componentSize) then
      mkAcc account st
    else
      .error .ErrAccountPathViolation
  else if st.totalComponents < 2 ∧ st.strategy ≠ .Synthetic then
    .error .ErrInvalidAccountStructure
  else
    mkAcc account st

/-- Go `newAccount(account, analyticOnly)`. -/
def newAccount (account : String) (analyticOnly : Bool) : Except Err Account :=
  if account.data = [] then
    .error .ErrInvalidAccountStructure
  else
    match scan analyticOnly account.data initState account.data with
    | .error e => .error e
    | .ok st => finish account st

/-- Go `NewAnalyticAccount`. -/
def NewAnalyticAccount (account : String) : Except Err Account :=
  newAccount account true

/-- Go `NewAccount`. -/
def NewAccount (account : String) : Except Err Account :=
  newAccount account false

deriving instance DecidableEq for Except

/-- the first dot-separated label of a string. -/
def firstLabel (s : String) : String :=
  ⟨s.data.takeWhile (· != '.')⟩

example : NewAccount "asset.account.treasury" =
    .ok ⟨.Analytic, "asset.account.treasury"⟩ := by decide
example : NewAccount "asset.*.treasury" = .ok ⟨.Synthetic, "asset.*.treasury"⟩ := by decide
example : NewAccount "foo.bar.baz" = .error .ErrAccountPathViolation := by decide
example : NewAccount "asset." = .error .ErrInvalidAccountComponentSize := by decide

section ScanLemmas

theorem scan_cons_ok {ao : Bool} {acc : List Char} {st st' : state} {r : Char}
    {l : List Char} (h : step ao acc st r = .ok st') :
    scan ao acc st (r :: l) = scan ao acc st' l := by
  simp [scan, h]

theorem scan_cons_inv {ao : Bool} {acc : List Char} {st st'' : state} {r : Char}
    {l : List Char} (h : scan ao acc st (r :: l) = .ok st'') :
    ∃ st', step ao acc st r = .ok st' ∧ scan ao acc st' l = .ok st'' := by
  cases hs : step ao acc st r with
  | error e => rw [scan, hs] at h; exact absurd h (by simp)
  | ok st' => rw [scan, hs] at h; exact ⟨st', rfl, h⟩

theorem scan_append_ok {ao : Bool} {acc : List Char} {st st' : state}
    {l₁ l₂ : List Char} (h : scan ao acc st l₁ = .ok st') :
    scan ao acc st (l₁ ++ l₂) = scan ao acc st' l₂ := by
  induction l₁ generalizing st with
  | nil =>
    simp only [scan] at h
    injection h with h
    subst h
    rfl
  | cons r t ih =>
    obtain ⟨st₁, hstep, hrest⟩ := scan_cons_inv h
    rw [List.cons_append, scan_cons_ok hstep]
    exact ih hrest

theorem step_dot_eq (ao : Bool) (acc : List Char) (st : state) :
    step ao acc st '.' = treatDot acc st := by
  unfold step
  rw [if_neg (by decide), if_neg (by decide), if_neg (by decide),
    if_neg (by decide), if_pos rfl]

theorem step_star_eq (ao : Bool) (acc : List Char) (st : state) :
    step ao acc st '*' =
      if ao then .error .ErrInvalidSingleAccountComponentCharacters
      else treatStar st := by
  unfold step
  rw [if_neg (by decide), if_neg (by decide), if_neg (by decide),
    if_neg (by decide), if_neg (by decide), if_pos rfl]

theorem treatDot_ok_inv {acc : List Char} {st st' : state}
    (h : treatDot acc st = .ok st') :
    st' = { st with totalComponents := st.totalComponents + 1,
                    componentSize := 0, componentHasStar := false } := by
  unfold treatDot at h
  split_ifs at h with h1 h2 h3 h4 <;>
    first
      | (exact Except.noConfusion h)
      | (injection h with h; exact h.symm)

theorem treatStar_ok_inv {st st' : state} (h : treatStar st = .ok st') :
    st.componentHasStar = false ∧
      st' = { st with strategy := .Synthetic,
                      componentSize := st.componentSize + 1,
                      componentHasStar := true } := by
  unfold treatStar at h
  split_ifs at h with h1
  injection h with h
  exact ⟨by simp_all, h.symm⟩

theorem step_ok_strategy_of_ne_star {ao : Bool} {acc : List Char} {st st' : state}
    {r : Char} (hr : r ≠ '*') (h : step ao acc st r = .ok st') :
    st'.strategy = st.strategy := by
  unfold step at h
  split_ifs at h with h1 h2 h3 h4 h5 h6 <;>
    first
      | (injection h with h; subst h; rfl)
      | (rw [treatDot_ok_inv h])
      | (exact absurd h6 hr)
      | (exact absurd h (by simp))

theorem step_ok_strategy_synth {ao : Bool} {acc : List Char} {st st' : state}
    {r : Char} (hsyn : st.strategy = .Synthetic) (h : step ao acc st r = .ok st') :
    st'.strategy = .Synthetic := by
  unfold step at h
  split_ifs at h with h1 h2 h3 h4 h5 h6 h7 <;>
    first
      | (injection h with h; subst h; exact hsyn)
      | (rw [treatDot_ok_inv h]; exact hsyn)
      | (rw [(treatStar_ok_inv h).2])
      | (exact absurd h (by simp))

theorem scan_ok_strategy_of_no_star {ao : Bool} {acc : List Char} {st st' : state}
    {l : List Char} (hl : '*' ∉ l) (h : scan ao acc st l = .ok st') :
    st'.strategy = st.strategy := by
  induction l generalizing st with
  | nil =>
    simp only [scan] at h
    injection h with h
    subst h
    rfl
  | cons r t ih =>
    obtain ⟨st₁, hstep, hrest⟩ := scan_cons_inv h
    have hr : r ≠ '*' := fun hc => hl (by simp [hc])
    have ht : '*' ∉ t := fun hc => hl (List.mem_cons_of_mem _ hc)
    rw [ih ht hrest, step_ok_strategy_of_ne_star hr hstep]

theorem scan_ok_strategy_synth {ao : Bool} {acc : List Char} {st st' : state}
    {l : List Char} (hsyn : st.strategy = .Synthetic) (h : scan ao acc st l = .ok st') :
    st'.strategy = .Synthetic := by
  induction l generalizing st with
  | nil =>
    simp only [scan] at h
    injection h with h
    subst h
    exact hsyn
  | cons r t ih =>
    obtain ⟨st₁, hstep, hrest⟩ := scan_cons_inv h
    exact ih (step_ok_strategy_synth hsyn hstep) hrest

theorem scan_ok_strategy_of_star {ao : Bool} {acc : List Char} {st st' : state}
    {l : List Char} (hl : '*' ∈ l) (h : scan ao acc st l = .ok st') :
    st'.strategy = .Synthetic := by
  induction l generalizing st with
  | nil => exact absurd hl (by simp)
  | cons r t ih =>
    obtain ⟨st₁, hstep, hrest⟩ := scan_cons_inv h
    rcases List.mem_cons.mp hl with hr | ht
    · subst hr
      rw [step_star_eq] at hstep
      split_ifs at hstep with hao
      have hst₁ : st₁.strategy = .Synthetic := by rw [(treatStar_ok_inv hstep).2]
      exact scan_ok_strategy_synth hst₁ hrest
    · exact ih ht hrest

end ScanLemmas

section StructureLemmas

theorem finish_ok_inv {s : String} {st : state} {a : Account}
    (h : finish s st = .ok a) :
    a = ⟨st.strategy, if st.needsLower then lowerAccount s else s⟩ := by
  unfold finish mkAcc at h
  split_ifs at h <;>
    first
      | (exact Except.noConfusion h)
      | (injection h with h; simp_all)

theorem newAccount_ok_inv {s : String} {ao : Bool} {a : Account}
    (h : newAccount s ao = .ok a) :
    s.data ≠ [] ∧ ∃ st, scan ao s.data initState s.data = .ok st ∧ finish s st = .ok a := by
  unfold newAccount at h
  split_ifs at h with hd
  refine ⟨hd, ?_⟩
  cases hscan : scan ao s.data initState s.data with
  | error e => rw [hscan] at h; exact Except.noConfusion h
  | ok st => rw [hscan] at h; exact ⟨st, rfl, h⟩

end StructureLemmas

/-- on any rune other than `*` the scan step ignores the `analyticOnly` flag. -/
theorem step_ao_irrel {acc : List Char} {st : state} {r : Char} (hr : r ≠ '*') :
    step true acc st r = step false acc st r := by
  unfold step
  split_ifs <;> rfl

theorem scan_ao_irrel {acc : List Char} {st : state} {l : List Char}
    (hl : '*' ∉ l) : scan true acc st l = scan false acc st l := by
  induction l generalizing st with
  | nil => rfl
  | cons r t ih =>
    have hr : r ≠ '*' := fun hc => hl (by simp [hc])
    have ht : '*' ∉ t := fun hc => hl (List.mem_cons_of_mem _ hc)
    rw [scan, scan, step_ao_irrel hr]
    cases step false acc st r with
    | error e => rfl
    | ok st' => exact ih ht

/-- C9: NewAccount and NewAnalyticAccount agree on every input containing no
    wildcard: they return the same Account on success and the same error on
    failure. -/
theorem newAccount_agrees_on_wildcard_free (s : String) (h : '*' ∉ s.data) :
    NewAccount s = NewAnalyticAccount s := by
  unfold NewAccount NewAnalyticAccount newAccount
  rw [scan_ao_irrel h]

/-- C9 witness. -/
theorem newAccount_agrees_on_wildcard_free_witness :
    NewAccount "asset.account.treasury" = NewAnalyticAccount "asset.account.treasury" :=
  newAccount_agrees_on_wildcard_free "asset.account.treasury" (by decide)

/-- C10: an account accepted by NewAccount is Synthetic exactly when the raw
    input contains a `*` rune; otherwise it is Analytic. -/
theorem accepted_synthetic_iff_star (s : String) (a : Account)
    (h : NewAccount s = .ok a) :
    (a.accountType = .Synthetic ↔ '*' ∈ s.data) := by
  obtain ⟨hd, st, hscan, hfin⟩ := newAccount_ok_inv h
  have hty : a.accountType = st.strategy := by rw [finish_ok_inv hfin]
  constructor
  · intro hsyn
    by_contra hstar
    have := scan_ok_strategy_of_no_star hstar hscan
    rw [hty, this] at hsyn
    exact AccountType.noConfusion hsyn
  · intro hstar
    rw [hty]
    exact scan_ok_strategy_of_star hstar hscan

/-- C10 witness. -/
theorem accepted_synthetic_iff_star_witness :
    ((Account.mk .Analytic "asset.account.treasury").accountType = .Synthetic ↔
      '*' ∈ "asset.account.treasury".data) :=
  accepted_synthetic_iff_star "asset.account.treasury" ⟨.Analytic, "asset.account.treasury"⟩
    (by decide)

/-- C2 (code bug): the single-label input "asset" passes the final class
    check, and the minimum-label check sits in an `else if` that is then
    skipped, so both constructors accept it; the two-label input "asset.b"
    is rejected as the claim expects. -/
theorem single_class_label_accepted :
    NewAccount "asset" = .ok ⟨.Analytic, "asset"⟩ ∧
    NewAnalyticAccount "asset" = .ok ⟨.Analytic, "asset"⟩ ∧
    NewAccount "asset.b" = .error .ErrInvalidAccountStructure := by
  decide

/-- C4 (code bug): the class check compares the raw first label before case
    folding, so "Asset.Account.Treasury" is rejected; with a lower-case class
    label the fold is applied once at the end as the claim describes. -/
theorem uppercase_class_rejected :
    NewAccount "Asset.Account.Treasury" = .error .ErrAccountPathViolation ∧
    NewAccount "asset.Account.Treasury" = .ok ⟨.Analytic, "asset.account.treasury"⟩ := by
  decide

set_option maxRecDepth 20000 in
/-- C3 (code bug): after the scan loop the final label's size is never
    re-checked, so a 300-character final label is accepted by both
    constructors; a 256-character inner label also passes the boundary check
    `componentSize > 256`. -/
theorem oversized_final_label_accepted :
    NewAccount ("asset.b." ++ ⟨List.replicate 300 'c'⟩) =
      .ok ⟨.Analytic, "asset.b." ++ ⟨List.replicate 300 'c'⟩⟩ ∧
    NewAnalyticAccount ("asset.b." ++ ⟨List.replicate 300 'c'⟩) =
      .ok ⟨.Analytic, "asset.b." ++ ⟨List.replicate 300 'c'⟩⟩ ∧
    NewAccount ("asset." ++ (⟨List.replicate 256 'x'⟩ : String) ++ ".b") =
      .ok ⟨.Analytic, "asset." ++ (⟨List.replicate 256 'x'⟩ : String) ++ ".b"⟩ := by
  decide

/-- C1 counterexample: "a*.b" is accepted by NewAccount although its first
    dot-separated label "a*" is neither the lone wildcard "*" nor one of the
    seven classes. -/
theorem wildcard_inside_first_label_accepted :
    NewAccount "a*.b" = .ok ⟨.Synthetic, "a*.b"⟩ ∧
    firstLabel "a*.b" ≠ "*" ∧
    isClass (firstLabel "a*.b").data = false := by
  decide

section CharLemmas

theorem lowerChar_of_not_upper {c : Char} (h : ¬('A' ≤ c ∧ c ≤ 'Z')) :
    lowerChar c = c := if_neg h

theorem toNat_Char_ofNat {n : Nat} (h1 : 97 ≤ n) (h2 : n ≤ 122) :
    (Char.ofNat n).toNat = n := by
  have hv : n.isValidChar := Or.inl (by omega)
  simp [Char.ofNat, hv, Char.ofNatAux, Char.toNat, UInt32.toNat, BitVec.toNat_ofNatLt]

theorem lowerChar_toNat_of_upper {c : Char} (h1 : 'A' ≤ c) (h2 : c ≤ 'Z') :
    (lowerChar c).toNat = c.toNat + 32 := by
  have h1' : 65 ≤ c.toNat := by simpa [Char.le_def] using h1
  have h2' : c.toNat ≤ 90 := by simpa [Char.le_def] using h2
  unfold lowerChar
  rw [if_pos ⟨h1, h2⟩]
  exact toNat_Char_ofNat (by omega) (by omega)

theorem lowerChar_lower_of_upper {c : Char} (h1 : 'A' ≤ c) (h2 : c ≤ 'Z') :
    'a' ≤ lowerChar c ∧ lowerChar c ≤ 'z' := by
  have h1' : 65 ≤ c.toNat := by simpa [Char.le_def] using h1
  have h2' : c.toNat ≤ 90 := by simpa [Char.le_def] using h2
  have ht := lowerChar_toNat_of_upper h1 h2
  constructor
  · have g1 : 97 ≤ (lowerChar c).toNat := by omega
    simpa [Char.le_def] using g1
  · have g2 : (lowerChar c).toNat ≤ 122 := by omega
    simpa [Char.le_def] using g2

theorem lowerChar_eq_iff_of_lower_range {c d : Char} (hd : d.toNat < 65) :
    lowerChar c = d ↔ c = d := by
  by_cases h : 'A' ≤ c ∧ c ≤ 'Z'
  · have h1' : 65 ≤ c.toNat := by simpa [Char.le_def] using h.1
    have ht := lowerChar_toNat_of_upper h.1 h.2
    constructor
    · intro he
      have := congrArg Char.toNat he
      omega
    · intro he
      subst he
      omega
  · rw [lowerChar_of_not_upper h]

theorem star_not_mem_map_lowerChar {l : List Char} (h : '*' ∉ l) :
    '*' ∉ l.map lowerChar := by
  intro hm
  obtain ⟨c, hc, he⟩ := List.mem_map.mp hm
  rw [lowerChar_eq_iff_of_lower_range (by decide)] at he
  exact h (he ▸ hc)

end CharLemmas

theorem scan_star_errors {acc : List Char} {st : state} {l : List Char}
    (hl : '*' ∈ l) : ∃ e, scan true acc st l = .error e := by
  induction l generalizing st with
  | nil => exact absurd hl (by simp)
  | cons r t ih =>
    rcases List.mem_cons.mp hl with hr | ht
    · subst hr
      refine ⟨.ErrInvalidSingleAccountComponentCharacters, ?_⟩
      rw [scan, step_star_eq]
      rfl
    · cases hs : step true acc st r with
      | error e => exact ⟨e, by rw [scan, hs]⟩
      | ok st' =>
        obtain ⟨e, he⟩ := @ih st' ht
        exact ⟨e, by rw [scan, hs]; exact he⟩

/-- C6 (amended): every input containing `*` is rejected by
    NewAnalyticAccount (with some error; the analytic-only invalid-character
    error fires only when the scan reaches the `*`), and consequently no
    account returned by NewAnalyticAccount is Synthetic or contains `*`. -/
theorem analytic_rejects_star_never_synthetic (s : String) :
    ('*' ∈ s.data → ∃ e, NewAnalyticAccount s = .error e) ∧
    (∀ a, NewAnalyticAccount s = .ok a →
      a.accountType ≠ .Synthetic ∧ '*' ∉ a.value.data) := by
  constructor
  · intro hstar
    unfold NewAnalyticAccount newAccount
    by_cases hd : s.data = []
    · exact ⟨.ErrInvalidAccountStructure, by rw [if_pos hd]⟩
    · obtain ⟨e, he⟩ := @scan_star_errors s.data initState s.data hstar
      exact ⟨e, by rw [if_neg hd, he]⟩
  · intro a h
    obtain ⟨hd, st, hscan, hfin⟩ := newAccount_ok_inv h
    have hstar : '*' ∉ s.data := by
      intro hs
      obtain ⟨e, he⟩ := @scan_star_errors s.data initState s.data hs
      rw [he] at hscan
      exact Except.noConfusion hscan
    have hval := finish_ok_inv hfin
    constructor
    · have := scan_ok_strategy_of_no_star hstar hscan
      rw [hval]
      simp only [this]
      exact AccountType.noConfusion
    · rw [hval]
      split_ifs
      · exact star_not_mem_map_lowerChar hstar
      · exact hstar

/-- C6 witness. -/
theorem analytic_rejects_star_never_synthetic_witness :
    (∃ e, NewAnalyticAccount "a*" = .error e) ∧
    ((Account.mk .Analytic "asset.account.treasury").accountType ≠ .Synthetic ∧
      '*' ∉ "asset.account.treasury".data) :=
  ⟨(analytic_rejects_star_never_synthetic "a*").1 (by decide),
   (analytic_rejects_star_never_synthetic "asset.account.treasury").2
     ⟨.Analytic, "asset.account.treasury"⟩ (by decide)⟩

/-- C6 counterexample: the input "foo.*" contains a wildcard but
    NewAnalyticAccount rejects it with the class-violation error, not with
    the analytic-only invalid-character error. -/
theorem star_input_rejected_with_class_error :
    NewAnalyticAccount "foo.*" = .error .ErrAccountPathViolation ∧
    Err.ErrAccountPathViolation ≠ Err.ErrInvalidSingleAccountComponentCharacters := by
  decide

/-- whether a character list contains two consecutive dots. -/
def hasDD : List Char → Bool
  | [] => false
  | [_] => false
  | a :: b :: t => (a == '.' && b == '.') || hasDD (b :: t)

theorem treatDot_size_zero {acc : List Char} {st : state} (h : st.componentSize = 0) :
    treatDot acc st = .error .ErrInvalidAccountComponentSize := by
  unfold treatDot
  rw [if_pos (Or.inl h)]

theorem scan_dd_errors {ao : Bool} {acc : List Char} {st : state} {l : List Char}
    (h : hasDD l = true) : ∃ e, scan ao acc st l = .error e := by
  induction l generalizing st with
  | nil => simp [hasDD] at h
  | cons a t ih =>
    cases t with
    | nil => simp [hasDD] at h
    | cons b t' =>
      simp only [hasDD, Bool.or_eq_true, Bool.and_eq_true, beq_iff_eq] at h
      rcases h with ⟨ha, hb⟩ | hdd
      · subst ha
        subst hb
        cases ht : treatDot acc st with
        | error e => exact ⟨e, by rw [scan, step_dot_eq, ht]⟩
        | ok st₁ =>
          refine ⟨.ErrInvalidAccountComponentSize, ?_⟩
          have hsz : st₁.componentSize = 0 := by rw [treatDot_ok_inv ht]
          have h2 : scan ao acc st₁ ('.' :: t') = .error .ErrInvalidAccountComponentSize := by
            rw [scan, step_dot_eq, treatDot_size_zero hsz]
          rw [scan, step_dot_eq, ht]
          exact h2
      · cases hs : step ao acc st a with
        | error e => exact ⟨e, by rw [scan, hs]⟩
        | ok st₁ =>
          obtain ⟨e, he⟩ := @ih st₁ hdd
          exact ⟨e, by rw [scan, hs]; exact he⟩

theorem newAccount_dot_anomalies {s : String} (ao : Bool)
    (h : s = "" ∨ s.data.head? = some '.' ∨ s.data.getLast? = some '.' ∨
      hasDD s.data = true) :
    ∃ e, newAccount s ao = .error e := by
  rcases h with he | hh | hl | hdd
  · subst he
    exact ⟨.ErrInvalidAccountStructure, by unfold newAccount; rw [if_pos rfl]⟩
  · obtain ⟨t, hdata⟩ : ∃ t, s.data = '.' :: t := by
      cases hd : s.data with
      | nil => rw [hd] at hh; exact Option.noConfusion hh
      | cons a t =>
        rw [hd] at hh
        injection hh with hh
        exact ⟨t, by rw [hh]⟩
    refine ⟨.ErrInvalidAccountComponentSize, ?_⟩
    have hscan : scan ao s.data initState s.data = .error .ErrInvalidAccountComponentSize := by
      rw [hdata, scan, step_dot_eq, treatDot_size_zero rfl]
    unfold newAccount
    rw [if_neg (by rw [hdata]; exact List.cons_ne_nil _ _), hscan]
  · cases hna : newAccount s ao with
    | error e => exact ⟨e, rfl⟩
    | ok a =>
      exfalso
      obtain ⟨hd, st, hscan, hfin⟩ := newAccount_ok_inv hna
      unfold finish at hfin
      rw [if_pos hl] at hfin
      exact Except.noConfusion hfin
  · have hd : s.data ≠ [] := by
      intro hc
      rw [hc] at hdd
      simp [hasDD] at hdd
    obtain ⟨e, he⟩ := @scan_dd_errors ao s.data initState s.data hdd
    refine ⟨e, ?_⟩
    unfold newAccount
    rw [if_neg hd, he]

/-- C8: every input that is empty, starts with a dot, ends with a dot, or
    contains two consecutive dots is rejected with an error by both
    NewAccount and NewAnalyticAccount. -/
theorem empty_leading_trailing_double_dot_rejected (s : String)
    (h : s = "" ∨ s.data.head? = some '.' ∨ s.data.getLast? = some '.' ∨
      hasDD s.data = true) :
    (∃ e, NewAccount s = .error e) ∧ (∃ e, NewAnalyticAccount s = .error e) :=
  ⟨newAccount_dot_anomalies false h, newAccount_dot_anomalies true h⟩

/-- C8 witness. -/
theorem empty_leading_trailing_double_dot_rejected_witness :
    (∃ e, NewAccount "a..b" = .error e) ∧ (∃ e, NewAnalyticAccount "a..b" = .error e) :=
  empty_leading_trailing_double_dot_rejected "a..b" (by decide)

section FirstLabel

theorem takeWhile_no_dot_append {p : List Char} (hp : ∀ x ∈ p, x ≠ '.')
    (l : List Char) : List.takeWhile (· != '.') (p ++ '.' :: l) = p := by
  induction p with
  | nil => simp [List.takeWhile]
  | cons a p' ih =>
    have ha : a ≠ '.' := hp a (by simp)
    have hb : (a != '.') = true := by simpa using ha
    have hp' : ∀ x ∈ p', x ≠ '.' := fun x hx => hp x (List.mem_cons_of_mem _ hx)
    simp [List.takeWhile, hb, ih hp']

theorem takeWhile_no_dot_all {p : List Char} (hp : ∀ x ∈ p, x ≠ '.') :
    List.takeWhile (· != '.') p = p := by
  induction p with
  | nil => rfl
  | cons a p' ih =>
    have ha : a ≠ '.' := hp a (by simp)
    have hb : (a != '.') = true := by simpa using ha
    have hp' : ∀ x ∈ p', x ≠ '.' := fun x hx => hp x (List.mem_cons_of_mem _ hx)
    simp [List.takeWhile, hb, ih hp']

theorem step_ok_cases {ao : Bool} {acc : List Char} {st st' : state} {r : Char}
    (h : step ao acc st r = .ok st') :
    (r ≠ '.' ∧ r ≠ '*' ∧ st'.totalComponents = st.totalComponents ∧
      st'.componentSize = st.componentSize + 1 ∧
      st'.componentHasStar = st.componentHasStar) ∨
    (r = '*' ∧ st.componentHasStar = false ∧
      st'.totalComponents = st.totalComponents ∧
      st'.componentSize = st.componentSize + 1 ∧
      st'.componentHasStar = true) ∨
    (r = '.' ∧ treatDot acc st = .ok st') := by
  unfold step at h
  split_ifs at h with h1 h2 h3 h4 h5 h6 h7
  · injection h with h
    subst h
    exact Or.inl ⟨fun hc => by subst hc; exact absurd h1 (by decide),
      fun hc => by subst hc; exact absurd h1 (by decide), rfl, rfl, rfl⟩
  · injection h with h
    subst h
    exact Or.inl ⟨fun hc => by subst hc; exact absurd h2 (by decide),
      fun hc => by subst hc; exact absurd h2 (by decide), rfl, rfl, rfl⟩
  · injection h with h
    subst h
    exact Or.inl ⟨fun hc => by subst hc; exact absurd h3 (by decide),
      fun hc => by subst hc; exact absurd h3 (by decide), rfl, rfl, rfl⟩
  · injection h with h
    subst h
    exact Or.inl ⟨fun hc => by subst hc; exact absurd h4 (by decide),
      fun hc => by subst hc; exact absurd h4 (by decide), rfl, rfl, rfl⟩
  · exact Or.inr (Or.inr ⟨h5, h⟩)
  · obtain ⟨hstf, hrec⟩ := treatStar_ok_inv h
    refine Or.inr (Or.inl ⟨h6, hstf, ?_, ?_, ?_⟩) <;> rw [hrec]

theorem scan_first_label {ao : Bool} {s : List Char} :
    ∀ {l p : List Char} {st st' : state},
    s = p ++ l →
    st.totalComponents = 0 →
    st.componentSize = p.length →
    (∀ x ∈ p, x ≠ '.') →
    (st.componentHasStar = true ↔ '*' ∈ p) →
    scan ao s st l = .ok st' →
    (isClass (s.takeWhile (· != '.')) = true ∨ '*' ∈ s.takeWhile (· != '.')) ∨
    (st'.totalComponents = 0 ∧ st'.componentSize = s.length ∧
      (∀ x ∈ s, x ≠ '.') ∧ (st'.componentHasStar = true ↔ '*' ∈ s)) := by
  intro l
  induction l with
  | nil =>
    intro p st st' hs htc hsz hnd hstar h
    simp only [scan] at h
    injection h with h
    subst h
    rw [hs, List.append_nil]
    exact Or.inr ⟨htc, by rw [hsz], hnd, hstar⟩
  | cons r t ih =>
    intro p st st' hs htc hsz hnd hstar h
    obtain ⟨st₁, hstep, hrest⟩ := scan_cons_inv h
    rcases step_ok_cases hstep with
      ⟨hrd, hrs, htc₁, hsz₁, hst₁⟩ | ⟨hrs, hstf, htc₁, hsz₁, hst₁⟩ | ⟨hrd, hdot⟩
    · refine ih (p := p ++ [r]) ?_ ?_ ?_ ?_ ?_ hrest
      · rw [hs, List.append_assoc]
        rfl
      · rw [htc₁, htc]
      · rw [hsz₁, hsz, List.length_append, List.length_singleton]
      · intro x hx
        rcases List.mem_append.mp hx with hx | hx
        · exact hnd x hx
        · rw [List.mem_singleton.mp hx]
          exact hrd
      · rw [hst₁]
        constructor
        · intro hb
          exact List.mem_append_left _ (hstar.mp hb)
        · intro hm
          rcases List.mem_append.mp hm with hm | hm
          · exact hstar.mpr hm
          · exact absurd (List.mem_singleton.mp hm).symm hrs
    · subst hrs
      refine ih (p := p ++ ['*']) ?_ ?_ ?_ ?_ ?_ hrest
      · rw [hs, List.append_assoc]
        rfl
      · rw [htc₁, htc]
      · rw [hsz₁, hsz, List.length_append, List.length_singleton]
      · intro x hx
        rcases List.mem_append.mp hx with hx | hx
        · exact hnd x hx
        · rw [List.mem_singleton.mp hx]
          decide
      · rw [hst₁]
        simp
    · subst hrd
      left
      rw [hs, takeWhile_no_dot_append hnd]
      unfold treatDot at hdot
      split_ifs at hdot with hz hb2 hcls hmax
      · -- first-label branch with the class check passed
        left
        rw [hsz] at hcls
        have : List.take p.length s = p := by
          rw [hs]
          exact List.take_left p ('.' :: t)
        rw [this] at hcls
        exact hcls
      · -- the first label contains a star, so the class check was skipped
        right
        rcases Decidable.not_and_iff_or_not.mp hb2 with hc | hc
        · exact absurd htc hc
        · have : st.componentHasStar = true := by
            cases hb : st.componentHasStar
            · exact absurd hb hc
            · rfl
          exact hstar.mp this

end FirstLabel

/-- C1 (amended): for every string accepted by newAccount (in either mode),
    the first dot-separated label either contains the wildcard `*` or is one
    of the seven fixed classes. -/
theorem first_label_class_or_contains_wildcard (ao : Bool) (s : String)
    (a : Account) (h : newAccount s ao = .ok a) :
    isClass (firstLabel s).data = true ∨ '*' ∈ (firstLabel s).data := by
  obtain ⟨hd, st, hscan, hfin⟩ := newAccount_ok_inv h
  have hfl : (firstLabel s).data = s.data.takeWhile (· != '.') := rfl
  rcases scan_first_label (s := s.data) (p := []) rfl rfl rfl (by simp) (by simp [initState]) hscan with
    hleft | ⟨htc, hsz, hnodot, hstar⟩
  · rw [hfl]
    exact hleft
  · rw [hfl, takeWhile_no_dot_all hnodot]
    unfold finish at hfin
    split_ifs at hfin with hlast hb2 hcls hmin
    · -- final class check passed
      left
      rw [hsz, List.take_length] at hcls
      exact hcls
    · -- the (single) label contains a star
      right
      rcases Decidable.not_and_iff_or_not.mp hb2 with hc | hc
      · exact absurd htc hc
      · have : st.componentHasStar = true := by
          cases hb : st.componentHasStar
          · exact absurd hb hc
          · rfl
        exact hstar.mp this

/-- C1 witness. -/
theorem first_label_class_or_contains_wildcard_witness :
    isClass (firstLabel "asset.account.treasury").data = true ∨
      '*' ∈ (firstLabel "asset.account.treasury").data :=
  first_label_class_or_contains_wildcard false "asset.account.treasury"
    ⟨.Analytic, "asset.account.treasury"⟩ (by decide)

section ManyLabels

/-- a list of k repetitions of the two characters ".a". -/
def repDotA : Nat → List Char
  | 0 => []
  | k + 1 => '.' :: 'a' :: repDotA k

/-- the class "asset" followed by 65535 further labels "a": 65536 labels. -/
def bigAccount : String := ⟨"asset".data ++ repDotA 65535⟩

theorem repDotA_succ (k : Nat) : repDotA (k + 1) = '.' :: 'a' :: repDotA k := rfl

theorem count_dot_repDotA : ∀ k : Nat, (repDotA k).count '.' = k := by
  intro k
  induction k with
  | zero => rfl
  | succ n ih => simp [repDotA_succ, List.count_cons, ih]

theorem getLast_repDotA : ∀ k : Nat, (repDotA (k + 1)).getLast? = some 'a' := by
  intro k
  induction k with
  | zero => rfl
  | succ n ih =>
    rw [repDotA_succ, List.getLast?_cons_cons, repDotA_succ, List.getLast?_cons_cons,
      ← repDotA_succ]
    exact ih

theorem scan_asset_start (ao : Bool) (acc : List Char) :
    scan ao acc initState "asset".data =
      .ok { totalComponents := 0, componentSize := 5, strategy := .Analytic,
            needsLower := false, componentHasStar := false } := rfl

theorem scan_repDotA (ao : Bool) (acc : List Char) :
    ∀ (k t : Nat), 1 ≤ t → t + k ≤ 65535 →
    scan ao acc
      { totalComponents := t, componentSize := 1, strategy := .Analytic,
        needsLower := false, componentHasStar := false } (repDotA k) =
      .ok { totalComponents := t + k, componentSize := 1, strategy := .Analytic,
            needsLower := false, componentHasStar := false } := by
  intro k
  induction k with
  | zero =>
    intro t h1 h2
    rfl
  | succ n ih =>
    intro t h1 h2
    rw [repDotA_succ]
    have ht0 : ¬(t = 0) := by omega
    have htm : ¬(t ≥ maxComponents) := by
      simp only [maxComponents]
      omega
    have hdot : treatDot acc
        { totalComponents := t, componentSize := 1, strategy := .Analytic,
          needsLower := false, componentHasStar := false } =
        .ok { totalComponents := t + 1, componentSize := 0, strategy := .Analytic,
              needsLower := false, componentHasStar := false } := by
      simp [treatDot, maxLabelSize, ht0, htm]
    have h1' : step ao acc
        { totalComponents := t, componentSize := 1, strategy := .Analytic,
          needsLower := false, componentHasStar := false } '.' =
        .ok { totalComponents := t + 1, componentSize := 0, strategy := .Analytic,
              needsLower := false, componentHasStar := false } := by
      rw [step_dot_eq]
      exact hdot
    rw [scan_cons_ok h1']
    have h2' : step ao acc
        { totalComponents := t + 1, componentSize := 0, strategy := .Analytic,
          needsLower := false, componentHasStar := false } 'a' =
        .ok { totalComponents := t + 1, componentSize := 1, strategy := .Analytic,
              needsLower := false, componentHasStar := false } := rfl
    rw [scan_cons_ok h2']
    have hte : t + 1 + n = t + (n + 1) := by omega
    rw [ih (t + 1) (by omega) (by omega), hte]

theorem scan_big_generic (ao : Bool) (acc : List Char)
    (hcls : isClass (List.take 5 acc) = true) :
    scan ao acc initState ("asset".data ++ repDotA 65535) =
      .ok { totalComponents := 65535, componentSize := 1, strategy := .Analytic,
            needsLower := false, componentHasStar := false } := by
  rw [scan_append_ok (scan_asset_start ao acc)]
  have h65 : (65535 : Nat) = 65534 + 1 := by norm_num
  rw [h65, repDotA_succ]
  have hdot : treatDot acc
      { totalComponents := 0, componentSize := 5, strategy := .Analytic,
        needsLower := false, componentHasStar := false } =
      .ok { totalComponents := 1, componentSize := 0, strategy := .Analytic,
            needsLower := false, componentHasStar := false } := by
    simp [treatDot, maxLabelSize, hcls]
  have h1' : step ao acc
      { totalComponents := 0, componentSize := 5, strategy := .Analytic,
        needsLower := false, componentHasStar := false } '.' =
      .ok { totalComponents := 1, componentSize := 0, strategy := .Analytic,
            needsLower := false, componentHasStar := false } := by
    rw [step_dot_eq]
    exact hdot
  rw [scan_cons_ok h1']
  have h2' : step ao acc
      { totalComponents := 1, componentSize := 0, strategy := .Analytic,
        needsLower := false, componentHasStar := false } 'a' =
      .ok { totalComponents := 1, componentSize := 1, strategy := .Analytic,
            needsLower := false, componentHasStar := false } := rfl
  rw [scan_cons_ok h2']
  rw [scan_repDotA ao acc 65534 1 (by omega) (by omega)]

theorem take_five_bigAccount : List.take 5 bigAccount.data = "asset".data := by
  have hdata : bigAccount.data = "asset".data ++ repDotA 65535 := rfl
  have h5 : ("asset".data).length = 5 := rfl
  rw [hdata, ← h5]
  exact List.take_left "asset".data (repDotA 65535)

theorem scan_bigAccount (ao : Bool) :
    scan ao bigAccount.data initState bigAccount.data =
      .ok { totalComponents := 65535, componentSize := 1, strategy := .Analytic,
            needsLower := false, componentHasStar := false } := by
  have hcls : isClass (List.take 5 bigAccount.data) = true := by
    rw [take_five_bigAccount]
    rfl
  exact scan_big_generic ao bigAccount.data hcls

theorem newAccount_bigAccount (ao : Bool) :
    newAccount bigAccount ao = .ok ⟨.Analytic, bigAccount⟩ := by
  have hne : bigAccount.data ≠ [] := by
    have hdata : bigAccount.data = "asset".data ++ repDotA 65535 := rfl
    rw [hdata]
    intro hc
    exact List.noConfusion (List.append_eq_nil.mp hc).1
  have hlast : bigAccount.data.getLast? = some 'a' := by
    have hdata : bigAccount.data = "asset".data ++ repDotA 65535 := rfl
    have h65 : (65535 : Nat) = 65534 + 1 := by norm_num
    rw [hdata, List.getLast?_append_of_ne_nil _
      (by rw [h65, repDotA_succ]; exact List.cons_ne_nil _ _), h65, getLast_repDotA]
  have hfin : finish bigAccount
      { totalComponents := 65535, componentSize := 1, strategy := .Analytic,
        needsLower := false, componentHasStar := false } =
      .ok ⟨.Analytic, bigAccount⟩ := by
    have hca : ('a' : Char) ≠ '.' := by decide
    unfold finish mkAcc
    rw [hlast]
    norm_num [hca]
  unfold newAccount
  rw [if_neg hne, scan_bigAccount ao]
  exact hfin

/-- C5 (code bug): bigAccount has 65536 dot-separated labels (65535 dots)
    and is accepted by both NewAccount and NewAnalyticAccount, because the
    component-count check only fires when totalComponents has already
    reached 65535 at a dot. -/
theorem account_with_65536_labels_accepted :
    bigAccount.data.count '.' + 1 = 65536 ∧
    NewAccount bigAccount = .ok ⟨.Analytic, bigAccount⟩ ∧
    NewAnalyticAccount bigAccount = .ok ⟨.Analytic, bigAccount⟩ := by
  refine ⟨?_, newAccount_bigAccount false, newAccount_bigAccount true⟩
  have hdata : bigAccount.data = "asset".data ++ repDotA 65535 := rfl
  rw [hdata, List.count_append, count_dot_repDotA]
  rfl

end ManyLabels

section Idempotent

/-- the state of the case-folded re-validation run: identical counters, but
    the fold flag can never be set because the input has no uppercase rune. -/
def lowerState (st : state) : state :=
  { st with needsLower := false }

theorem isClass_map_lowerChar {l : List Char} (h : isClass l = true) :
    l.map lowerChar = l := by
  simp only [isClass, Bool.or_eq_true, decide_eq_true_eq] at h
  rcases h with ((((((h | h) | h) | h) | h) | h) | h) <;> subst h <;> decide

theorem treatDot_lower {acc : List Char} {tc sz : Nat} {strat : AccountType}
    {nl star : Bool} {st' : state}
    (h : treatDot acc ⟨tc, sz, strat, nl, star⟩ = .ok st') :
    treatDot (acc.map lowerChar) ⟨tc, sz, strat, false, star⟩ =
      .ok ⟨tc + 1, 0, strat, false, false⟩ := by
  unfold treatDot at h ⊢
  dsimp only at h ⊢
  split_ifs at h with d1 d2 d3 d4
  · -- first-label branch, class check passed (d3 : isClass (take sz acc))
    rw [if_neg d1, if_pos d2]
    have hm : List.take sz (acc.map lowerChar) = List.take sz acc := by
      rw [← List.map_take, isClass_map_lowerChar d3]
    rw [if_pos (by rw [hm]; exact d3)]
  · -- later-label branch
    rw [if_neg d1, if_neg d2, if_neg d4]

theorem step_lower {ao : Bool} {acc : List Char} {st st' : state} {r : Char}
    (h : step ao acc st r = .ok st') :
    step ao (acc.map lowerChar) (lowerState st) (lowerChar r) =
      .ok (lowerState st') := by
  obtain ⟨tc, sz, strat, nl, star⟩ := st
  unfold step at h
  split_ifs at h with h1 h2 h3 h4 h5 h6 h7
  · -- lowercase letter
    have hnu : ¬('A' ≤ r ∧ r ≤ 'Z') := by
      intro hc
      have ha : 97 ≤ r.toNat := by simpa [Char.le_def] using h1.1
      have hz : r.toNat ≤ 90 := by simpa [Char.le_def] using hc.2
      omega
    injection h with h
    subst h
    rw [lowerChar_of_not_upper hnu]
    unfold step
    rw [if_pos h1]
    rfl
  · -- digit
    have hnu : ¬('A' ≤ r ∧ r ≤ 'Z') := by
      intro hc
      have h9 : r.toNat ≤ 57 := by simpa [Char.le_def] using h2.2
      have ha : 65 ≤ r.toNat := by simpa [Char.le_def] using hc.1
      omega
    injection h with h
    subst h
    rw [lowerChar_of_not_upper hnu]
    unfold step
    rw [if_neg h1, if_pos h2]
    rfl
  · -- uppercase letter: the folded rune is a lowercase letter
    injection h with h
    subst h
    unfold step
    rw [if_pos (lowerChar_lower_of_upper h3.1 h3.2)]
    rfl
  · -- underscore
    subst h4
    injection h with h
    subst h
    have hlr : lowerChar '_' = '_' := rfl
    rw [hlr]
    unfold step
    rw [if_neg h1, if_neg h2, if_neg h3, if_pos rfl]
    rfl
  · -- dot
    subst h5
    have hrec := treatDot_ok_inv h
    subst hrec
    have hlr : lowerChar '.' = '.' := rfl
    rw [hlr]
    rw [step_dot_eq]
    exact treatDot_lower h
  · -- star
    subst h6
    obtain ⟨hsf, hrec⟩ := treatStar_ok_inv h
    subst hrec
    dsimp only at hsf
    subst hsf
    have hlr : lowerChar '*' = '*' := rfl
    rw [hlr]
    unfold step
    rw [if_neg h1, if_neg h2, if_neg h3, if_neg h4, if_neg h5, if_pos rfl, if_neg h7]
    rfl

theorem scan_lower {ao : Bool} {acc : List Char} :
    ∀ {l : List Char} {st st' : state}, scan ao acc st l = .ok st' →
    scan ao (acc.map lowerChar) (lowerState st) (l.map lowerChar) =
      .ok (lowerState st') := by
  intro l
  induction l with
  | nil =>
    intro st st' h
    simp only [scan] at h
    injection h with h
    subst h
    rfl
  | cons r t ih =>
    intro st st' h
    obtain ⟨st₁, hstep, hrest⟩ := scan_cons_inv h
    rw [List.map_cons, scan_cons_ok (step_lower hstep)]
    exact ih hrest

theorem getLast_lower_ne_dot {s : String} (hne : ¬(s.data.getLast? = some '.')) :
    ¬((lowerAccount s).data.getLast? = some '.') := by
  have hdata : (lowerAccount s).data = s.data.map lowerChar := rfl
  rw [hdata, List.getLast?_map]
  intro hc
  rcases hop : s.data.getLast? with _ | c
  · rw [hop] at hc
    exact Option.noConfusion hc
  · rw [hop] at hc
    injection hc with hc
    rw [lowerChar_eq_iff_of_lower_range (by decide)] at hc
    subst hc
    exact hne hop

theorem finish_lower {s : String} {st : state} {a : Account}
    (hfin : finish s st = .ok a) (hnl : st.needsLower = true) :
    finish (lowerAccount s) (lowerState st) = .ok a := by
  have l1 : (lowerState st).totalComponents = st.totalComponents := rfl
  have l2 : (lowerState st).componentSize = st.componentSize := rfl
  have l3 : (lowerState st).strategy = st.strategy := rfl
  have l4 : (lowerState st).needsLower = false := rfl
  have l5 : (lowerState st).componentHasStar = st.componentHasStar := rfl
  unfold finish mkAcc at hfin ⊢
  rw [l1, l2, l3, l4, l5]
  split_ifs at hfin with f1 f2 f3
  · -- single-label branch with the class check passed
    have hm : List.take st.componentSize (lowerAccount s).data =
        List.take st.componentSize s.data := by
      have hdata : (lowerAccount s).data = s.data.map lowerChar := rfl
      rw [hdata, ← List.map_take, isClass_map_lowerChar f3]
    rw [if_neg (getLast_lower_ne_dot f1), if_pos f2, if_pos (by rw [hm]; exact f3)]
    exact hfin
  · -- multi-label branch
    rename_i f4
    rw [if_neg (getLast_lower_ne_dot f1), if_neg f2, if_neg f4]
    exact hfin

/-- C7: validation is idempotent under normalization — re-validating the
    value of an account accepted by NewAccount succeeds and returns the very
    same account (same value and same type). -/
theorem newAccount_idempotent (s : String) (a : Account)
    (h : NewAccount s = .ok a) : NewAccount a.value = .ok a := by
  obtain ⟨hd, st, hscan, hfin⟩ := newAccount_ok_inv h
  have hval := finish_ok_inv hfin
  by_cases hnl : st.needsLower = true
  · -- the value is the case-folded input; re-run the scan on it
    have hva : a.value = lowerAccount s := by
      rw [hval]
      simp [hnl]
    rw [hva]
    have hdata : (lowerAccount s).data = s.data.map lowerChar := rfl
    have hne : (lowerAccount s).data ≠ [] := by
      rw [hdata]
      intro hc
      exact hd (List.map_eq_nil.mp hc)
    have hsc := scan_lower hscan
    have hinit : lowerState initState = initState := rfl
    rw [hinit] at hsc
    unfold NewAccount newAccount
    rw [if_neg hne]
    rw [show scan false (lowerAccount s).data initState (lowerAccount s).data =
        .ok (lowerState st) from hsc]
    exact finish_lower hfin hnl
  · -- no fold was needed: the value is the raw input itself
    have hva : a.value = s := by
      rw [hval]
      simp [hnl]
    rw [hva]
    exact h

/-- C7 witness. -/
theorem newAccount_idempotent_witness :
    NewAccount (Account.mk .Analytic "asset.account.treasury").value =
      .ok (Account.mk .Analytic "asset.account.treasury") :=
  newAccount_idempotent "asset.Account.Treasury" ⟨.Analytic, "asset.account.treasury"⟩
    (by decide)

end Idempotent

end LedgerVos
